import Mathlib

/-!
Verification development for `ratemeter.py`, a telemetry daemon that polls a
distance sensor, keeps rolling windows of `(timestamp, distance)` samples,
estimates rates by linear regression at three horizons, smooths the short-term
rate, and publishes clamped fixed-width integer encodings to four output files.

Shallow embedding conventions:
* Python floats are modelled as rationals (`ℚ`); the one inherently real-valued
  quantity (the regression correlation coefficient, which needs a square root)
  lives in `ℝ`.
* Python's `round` (round-half-to-even, "banker's rounding") is `pyRound`.
* File contents are `List Char`; a `seek(0)` followed by `write(w)` on content
  `c` yields `w ++ c.drop w.length` (no truncation happens in the source).
* `collections.deque` with `maxlen` set to `cap` is modelled by `dequePush cap`.
-/

namespace Ratemeter

/-- Constant `SAMPLES_SHORTTERM = 60` from the source (line 30). -/
def SAMPLES_SHORTTERM : ℕ := 60

/-- Constant `SAMPLES_MIDTERM = 120` from the source (line 31). -/
def SAMPLES_MIDTERM : ℕ := 120

/-- Constant `SAMPLES_LONGTERM = 240` from the source (line 32); also the
capacity of the rolling `samples` deque. -/
def SAMPLES_LONGTERM : ℕ := 240

/-- Constant `NUMBER_OF_RATES = 20` from the source (line 33); capacity of the
`rate_samples_shortterm` deque. -/
def NUMBER_OF_RATES : ℕ := 20

/-- Python's built-in `round` on an exact value: round to the nearest integer,
ties to the even integer (banker's rounding). Models `round(...)` at source
line 87. -/
def pyRound (q : ℚ) : ℤ :=
  let f := ⌊q⌋
  let r := q - (f : ℚ)
  if r < 1/2 then f
  else if 1/2 < r then f + 1
  else if Even f then f else f + 1

/-- The Output Encoder: `rate_pm_s = round(rate * 1e9)`, shift by `+100000`,
clamp to `[-273000, 200000]` (source lines 87-89). -/
def encode (rate_in_mm_per_s : ℚ) : ℤ :=
  let rate_pm_s := pyRound (rate_in_mm_per_s * 10 ^ 9)
  let rate_shifted := rate_pm_s + 100000
  max (-273000) (min rate_shifted 200000)

/-- The sums underlying `scipy.stats.linregress(times, dists)` as called by
`compute_rate` (source lines 71-74): timestamps are shifted by the first
timestamp; `num`, `den`, `sdd` are the scaled least-squares sums with
`slope = num / den` and `r_value = num / sqrt (den * sdd)` (they are `n ^ 2`
times the co/variances scipy uses, which cancels in both quotients). -/
def regNumDen (samples : List (ℚ × ℚ)) : ℚ × ℚ × ℚ :=
  let t0 := samples.headI.1
  let times := samples.map (fun s => s.1 - t0)
  let dists := samples.map (fun s => s.2)
  let n : ℚ := samples.length
  let num := n * (List.zipWith (fun a b => a * b) times dists).sum - times.sum * dists.sum
  let den := n * (times.map (fun a => a * a)).sum - times.sum * times.sum
  let sdd := n * (dists.map (fun a => a * a)).sum - dists.sum * dists.sum
  (num, den, sdd)

/-- The slope component of `compute_rate` (source lines 67-83): `0.0` for
fewer than 2 samples, otherwise the least-squares slope. (When all shifted
times are equal the float code would produce a non-finite value; here `den = 0`
and division yields `0`. The daemon never hits that case: timestamps strictly
increase.) -/
def slopeOf (samples : List (ℚ × ℚ)) : ℚ :=
  if samples.length < 2 then 0 else (regNumDen samples).1 / (regNumDen samples).2.1

/-- The sample-count component of `compute_rate`: `0` for fewer than 2
samples, otherwise `len(samples)` (source lines 69 and 83). -/
def countOf (samples : List (ℚ × ℚ)) : ℕ :=
  if samples.length < 2 then 0 else samples.length

/-- The correlation-coefficient component of `compute_rate`, following
`scipy.stats.linregress`: `0` when either variance vanishes, otherwise
`num / sqrt (den * sdd)` clipped to `[-1, 1]`. Needs a real square root. -/
noncomputable def rValueOf (samples : List (ℚ × ℚ)) : ℝ :=
  if samples.length < 2 then 0
  else
    let num := (regNumDen samples).1
    let den := (regNumDen samples).2.1
    let sdd := (regNumDen samples).2.2
    if den = 0 ∨ sdd = 0 then 0
    else max (-1) (min ((num : ℝ) / Real.sqrt ((den : ℝ) * (sdd : ℝ))) 1)

/-- `compute_rate` (source lines 67-83): returns
`(slope in mm/s, number of samples used, r_value)`. -/
noncomputable def compute_rate (samples : List (ℚ × ℚ)) : ℚ × ℕ × ℝ :=
  (slopeOf samples, countOf samples, rValueOf samples)

/-- The Temporal Smoother body (source lines 139-143): the weighted mean of
the retained `(rate, weight)` history when the total weight is positive,
`0.0` otherwise. (The enclosing `len > 0` test at line 138 is always true at
its call site, since a pair was appended at line 137.) -/
def smoothed (hist : List (ℚ × ℚ)) : ℚ :=
  let total_weight := (hist.map (fun p => p.2)).sum
  if 0 < total_weight then (hist.map (fun p => p.1 * p.2)).sum / total_weight
  else 0

/-- `collections.deque` with `maxlen` set to `cap`: `append x` adds on the
right and discards from the left while the length exceeds `cap`. -/
def dequePush {α : Type} (cap : ℕ) (buf : List α) (x : α) : List α :=
  if buf.length < cap then buf ++ [x]
  else (buf ++ [x]).drop (buf.length + 1 - cap)

/-- The age-based prune loop of the sensor-unavailable branch (source lines
155-157): `while samples and samples[0][0] < cutoff: samples.popleft()`. -/
def pruneSamples (buf : List (ℚ × ℚ)) (cutoff : ℚ) : List (ℚ × ℚ) :=
  buf.dropWhile (fun s => decide (s.1 < cutoff))

/-- Python's `list(samples)[-n:]` (source lines 131-132): the most recent
`min n samples.length` samples, in order. -/
def lastN {α : Type} (n : ℕ) (l : List α) : List α := l.drop (l.length - n)

/-- Base-10 digits, least significant first, by repeated division; the first
argument is recursion fuel (any fuel at least the number itself suffices, see
`digitsRev_eq_digits`). -/
def digitsRev : ℕ → ℕ → List ℕ
  | 0, _ => []
  | fuel + 1, m => if m = 0 then [] else m % 10 :: digitsRev fuel (m / 10)

/-- Decimal digit characters of a natural number, most significant first
(`0` renders as the single digit `'0'`), as Python's `str` produces. -/
def natDigitChars (m : ℕ) : List Char :=
  if m = 0 then ['0']
  else ((digitsRev m m).reverse).map (fun d => Char.ofNat (48 + d))

/-- Python's `str` of an `int`: an optional minus sign, then decimal digits. -/
def intReprChars (n : ℤ) : List Char :=
  if n < 0 then '-' :: natDigitChars n.natAbs else natDigitChars n.natAbs

/-- The 9-wide right-justified decimal field of the format string at source
line 91: the integer's decimal text, space-padded on the left to width 9. -/
def pyFormat9 (n : ℤ) : List Char :=
  let s := intReprChars n
  List.replicate (9 - s.length) ' ' ++ s

/-- The full line written for a rate each cycle: the padded encoded value
followed by a newline (source line 91). -/
def lineFor (rate : ℚ) : List Char := pyFormat9 (encode rate) ++ ['\n']

/-- Effect on a file of content `content` of `seek(0)` followed by `write w`
and `flush` (source lines 90-93): the written bytes replace the first
`w.length` bytes; the remainder of the old content stays, because the source
never calls `truncate`. -/
def writeAt0 (content w : List Char) : List Char := w ++ content.drop w.length

/-- The two operations the main loop performs on the rolling `samples`
deque: `samples.append((now, dist))` (source line 115) and the age-based
prune with cutoff `now - 240` when the sensor is unavailable (lines
154-157). -/
inductive BufOp : Type
  | push : ℚ × ℚ → BufOp
  | prune : ℚ → BufOp

/-- Apply one `BufOp` to the rolling sample buffer. -/
def applyBufOp (buf : List (ℚ × ℚ)) : BufOp → List (ℚ × ℚ)
  | BufOp.push s => dequePush SAMPLES_LONGTERM buf s
  | BufOp.prune now => pruneSamples buf (now - 240)

/-- The mutable state of the `main` loop (source lines 104-160): the rolling
sample window, the short-term rate history, the 5-deep `recent_dists` batch
buffer, and the contents of the four output files. -/
structure DaemonState : Type where
  samples : List (ℚ × ℚ)
  rate_hist : List (ℚ × ℚ)
  recent : List ℚ
  f_short : List Char
  f_mid : List Char
  f_long : List Char
  f_smooth : List Char

/-- One iteration of the main loop body (source lines 112-157) at time `now`
with sensor reading `dist` (`none` when `get_distance` returned `None`). The
metrics-export subprocess and the log line are external side effects with no
state here; `recent_dists` is still tracked because it is cleared on every
5th successful sample. -/
def step (now : ℚ) (dist : Option ℚ) (st : DaemonState) : DaemonState :=
  match dist with
  | some d =>
    let samples1 := dequePush SAMPLES_LONGTERM st.samples (now, d)
    let recent1 := dequePush 5 st.recent d
    let recent2 := if recent1.length = 5 then [] else recent1
    if 5 ≤ samples1.length then
      let shortterm_samples := lastN SAMPLES_SHORTTERM samples1
      let midterm_samples := lastN SAMPLES_MIDTERM samples1
      let rate_short := slopeOf shortterm_samples
      let count_short := countOf shortterm_samples
      let rate_mid := slopeOf midterm_samples
      let rate_long := slopeOf samples1
      let weight := (count_short : ℚ) / (SAMPLES_SHORTTERM : ℚ)
      let hist1 := dequePush NUMBER_OF_RATES st.rate_hist (rate_short, weight)
      let avg_rate := smoothed hist1
      { samples := samples1, rate_hist := hist1, recent := recent2,
        f_short := writeAt0 st.f_short (lineFor rate_short),
        f_mid := writeAt0 st.f_mid (lineFor rate_mid),
        f_long := writeAt0 st.f_long (lineFor rate_long),
        f_smooth := writeAt0 st.f_smooth (lineFor avg_rate) }
    else
      { st with samples := samples1, recent := recent2 }
  | none =>
    { st with samples := pruneSamples st.samples (now - 240) }

/-- From the spec's words in claim C2: "the overall displacement trend of
the window" — the net displacement across the window, i.e. last distance
minus first distance. -/
def trendOf (samples : List (ℚ × ℚ)) : ℚ :=
  (samples.getLast?.getD (0, 0)).2 - samples.headI.2

/-- The least-squares slope numerator for index functions `t`, `d` over
`range n`: `n * Σ t·d - Σt * Σd`; with `d := t` it is the denominator. Used
to reason about `regNumDen` through `Finset` sums. -/
def numQ (n : ℕ) (t d : ℕ → ℚ) : ℚ :=
  (n : ℚ) * (∑ i ∈ Finset.range n, t i * d i) -
    (∑ i ∈ Finset.range n, t i) * (∑ i ∈ Finset.range n, d i)

/-- A full window of 240 samples with strictly increasing timestamps, used
to witness `window_store_capacity`. -/
def witnessFull : List (ℚ × ℚ) := (List.range 240).map (fun i : ℕ => ((i : ℚ), 0))

lemma pyRound_le (q : ℚ) : (pyRound q : ℚ) ≤ q + 1/2 := by
  unfold pyRound
  have hfl : (⌊q⌋ : ℚ) ≤ q := Int.floor_le q
  have hfr : q - (⌊q⌋ : ℚ) < 1 := by
    have := Int.lt_floor_add_one q
    linarith
  by_cases h1 : q - (⌊q⌋ : ℚ) < 1/2
  · simp only [h1, if_true]
    linarith
  · by_cases h2 : 1/2 < q - (⌊q⌋ : ℚ)
    · simp only [h1, if_false, h2, if_true]
      push_cast
      linarith
    · have heq : q - (⌊q⌋ : ℚ) = 1/2 := le_antisymm (not_lt.mp h2) (not_lt.mp h1)
      simp only [h1, if_false, h2, if_false]
      by_cases he : Even ⌊q⌋ <;> simp only [he, if_true, if_false] <;> push_cast <;> linarith

lemma le_pyRound (q : ℚ) : q - 1/2 ≤ (pyRound q : ℚ) := by
  unfold pyRound
  have hfl : (⌊q⌋ : ℚ) ≤ q := Int.floor_le q
  have hfr : q - (⌊q⌋ : ℚ) < 1 := by
    have := Int.lt_floor_add_one q
    linarith
  by_cases h1 : q - (⌊q⌋ : ℚ) < 1/2
  · simp only [h1, if_true]
    linarith
  · by_cases h2 : 1/2 < q - (⌊q⌋ : ℚ)
    · simp only [h1, if_false, h2, if_true]
      push_cast
      linarith
    · have heq : q - (⌊q⌋ : ℚ) = 1/2 := le_antisymm (not_lt.mp h2) (not_lt.mp h1)
      simp only [h1, if_false, h2, if_false]
      by_cases he : Even ⌊q⌋ <;> simp only [he, if_true, if_false] <;> push_cast <;> linarith

lemma pyRound_mono {q₁ q₂ : ℚ} (h : q₁ ≤ q₂) : pyRound q₁ ≤ pyRound q₂ := by
  rcases eq_or_lt_of_le h with heq | hlt
  · subst heq; exact le_refl _
  by_contra hcon
  push_neg at hcon
  have hstep : pyRound q₂ + 1 ≤ pyRound q₁ := hcon
  have h1 : (pyRound q₁ : ℚ) ≤ q₁ + 1/2 := pyRound_le q₁
  have h2 : q₂ - 1/2 ≤ (pyRound q₂ : ℚ) := le_pyRound q₂
  have hcast : (pyRound q₂ : ℚ) + 1 ≤ (pyRound q₁ : ℚ) := by exact_mod_cast hstep
  linarith

lemma pyRound_intCast (n : ℤ) : pyRound (n : ℚ) = n := by
  unfold pyRound
  simp [Int.floor_intCast]

lemma digitsRev_eq_digits : ∀ (fuel m : ℕ), m ≤ fuel → digitsRev fuel m = Nat.digits 10 m := by
  intro fuel
  induction fuel with
  | zero =>
    intro m hm
    interval_cases m
    simp [digitsRev]
  | succ fuel ih =>
    intro m hm
    by_cases hm0 : m = 0
    · simp [digitsRev, hm0]
    · have hdiv : m / 10 ≤ fuel := by
        have : m / 10 < m := Nat.div_lt_self (Nat.pos_of_ne_zero hm0) (by norm_num)
        omega
      rw [digitsRev, if_neg hm0, ih _ hdiv,
        Nat.digits_def' (by norm_num : (1:ℕ) < 10) (Nat.pos_of_ne_zero hm0)]

lemma encode_ge (r : ℚ) : -273000 ≤ encode r := le_max_left _ _

lemma encode_le (r : ℚ) : encode r ≤ 200000 := max_le (by norm_num) (min_le_right _ _)

lemma encode_zero : encode 0 = 100000 := by
  have h : ((0:ℚ) * 10 ^ 9) = ((0 : ℤ) : ℚ) := by norm_num
  rw [encode, h, pyRound_intCast]
  decide

lemma encode_one : encode 1 = 200000 := by
  have h : ((1:ℚ) * 10 ^ 9) = ((10 ^ 9 : ℤ) : ℚ) := by norm_num
  rw [encode, h, pyRound_intCast]
  decide

lemma encode_negOne : encode (-1) = -273000 := by
  have h : ((-1:ℚ) * 10 ^ 9) = ((-(10 ^ 9) : ℤ) : ℚ) := by norm_num
  rw [encode, h, pyRound_intCast]
  decide

/-- C1: the Output Encoder maps a rate `r` in mm/s to
`clamp (round (r * 1e9) + 100000) (-273000) 200000`; every encoded value lies
in the inclusive range `[-273000, 200000]`; a rate of `0` encodes to
`100000`, a rate of `+1` mm/s saturates the maximum `200000`, and a rate of
`-1` mm/s saturates the minimum `-273000`. -/
theorem encode_clamp_range_and_boundaries :
    ∀ r : ℚ,
      (encode r = max (-273000) (min (pyRound (r * 10 ^ 9) + 100000) 200000) ∧
        -273000 ≤ encode r ∧ encode r ≤ 200000) ∧
      encode 0 = 100000 ∧ encode 1 = 200000 ∧ encode (-1) = -273000 := by
  intro r
  exact ⟨⟨rfl, encode_ge r, encode_le r⟩, encode_zero, encode_one, encode_negOne⟩

/-- C9: for every input slice of fewer than 2 samples, `compute_rate`
deterministically returns `(0.0, 0, 0.0)`; insufficient data is a defined
zero state, not a failure. -/
theorem compute_rate_short_input (s : List (ℚ × ℚ)) (h : s.length < 2) :
    compute_rate s = (0, 0, 0) := by
  simp [compute_rate, slopeOf, countOf, rValueOf, h]

/-- Witness for `compute_rate_short_input`: the empty slice. -/
theorem compute_rate_short_input_witness :
    ([] : List (ℚ × ℚ)).length < 2 ∧ compute_rate ([] : List (ℚ × ℚ)) = (0, 0, 0) :=
  ⟨by decide, compute_rate_short_input [] (by decide)⟩

/-- C4: for every retained smoother history of weighted rate samples with
nonnegative weights (as produced by the program), the smoothed rate is the
weighted mean `sum (rate * weight) / sum weight`; whenever the total weight
is zero (history empty or all weights zero) the smoothed rate is `0` with no
division by zero. -/
theorem smoothed_is_weighted_mean (hist : List (ℚ × ℚ))
    (hw : ∀ p ∈ hist, 0 ≤ p.2) :
    ((hist.map (fun p => p.2)).sum = 0 → smoothed hist = 0) ∧
      ((hist.map (fun p => p.2)).sum ≠ 0 →
        smoothed hist =
          (hist.map (fun p => p.1 * p.2)).sum / (hist.map (fun p => p.2)).sum) := by
  have hdef : smoothed hist =
      if 0 < (hist.map (fun p => p.2)).sum then
        (hist.map (fun p => p.1 * p.2)).sum / (hist.map (fun p => p.2)).sum
      else 0 := rfl
  constructor
  · intro h0
    rw [hdef, if_neg]
    rw [h0]
    exact lt_irrefl 0
  · intro hne
    have hnn : 0 ≤ (hist.map (fun p => p.2)).sum := by
      apply List.sum_nonneg
      intro x hx
      rcases List.mem_map.mp hx with ⟨p, hp, rfl⟩
      exact hw p hp
    have hpos : 0 < (hist.map (fun p => p.2)).sum := lt_of_le_of_ne hnn (Ne.symm hne)
    rw [hdef, if_pos hpos]

/-- Witness for `smoothed_is_weighted_mean`: a one-element history with a
zero weight smooths to `0` (no division by zero). -/
theorem smoothed_is_weighted_mean_witness :
    smoothed [((3 : ℚ), (0 : ℚ))] = 0 :=
  (smoothed_is_weighted_mean [((3 : ℚ), (0 : ℚ))] (by norm_num)).1 (by simp)

/-- C5: the output encoding is monotone non-decreasing; two distinct rates
encode equally only when the common value sits at a clamp boundary or when
both rates round to the same integer. -/
theorem encode_monotone (r₁ r₂ : ℚ) (h : r₁ < r₂) :
    encode r₁ ≤ encode r₂ ∧
      (encode r₁ = encode r₂ →
        encode r₁ = 200000 ∨ encode r₁ = -273000 ∨
          pyRound (r₁ * 10 ^ 9) = pyRound (r₂ * 10 ^ 9)) := by
  have hmul : r₁ * 10 ^ 9 ≤ r₂ * 10 ^ 9 :=
    mul_le_mul_of_nonneg_right h.le (by positivity)
  have hp : pyRound (r₁ * 10 ^ 9) ≤ pyRound (r₂ * 10 ^ 9) := pyRound_mono hmul
  have hdef₁ : encode r₁ = max (-273000) (min (pyRound (r₁ * 10 ^ 9) + 100000) 200000) := rfl
  have hdef₂ : encode r₂ = max (-273000) (min (pyRound (r₂ * 10 ^ 9) + 100000) 200000) := rfl
  constructor
  · rw [hdef₁, hdef₂]
    omega
  · intro heq
    rw [hdef₁, hdef₂] at heq
    rw [hdef₁]
    omega

/-- Witness for `encode_monotone` at the rates `0 < 1`. -/
theorem encode_monotone_witness :
    encode 0 ≤ encode 1 ∧
      (encode 0 = encode 1 →
        encode 0 = 200000 ∨ encode 0 = -273000 ∨
          pyRound ((0 : ℚ) * 10 ^ 9) = pyRound ((1 : ℚ) * 10 ^ 9)) :=
  encode_monotone 0 1 (by norm_num)

/-- C7: on a buffer with non-decreasing timestamps, the age-based prune with
a given cutoff removes exactly the samples whose timestamp is older than the
cutoff — all of them and no others — and the survivors keep their relative
order (the result is the order-preserving filter of the buffer, a sublist). -/
theorem prune_removes_exactly_old (buf : List (ℚ × ℚ)) (cutoff : ℚ)
    (hsorted : List.Pairwise (fun a b => a.1 ≤ b.1) buf) :
    pruneSamples buf cutoff = buf.filter (fun s => decide (cutoff ≤ s.1)) ∧
      List.Sublist (pruneSamples buf cutoff) buf := by
  have hmain : ∀ (l : List (ℚ × ℚ)), List.Pairwise (fun a b => a.1 ≤ b.1) l →
      pruneSamples l cutoff = l.filter (fun s => decide (cutoff ≤ s.1)) := by
    intro l
    induction l with
    | nil => intro _; rfl
    | cons a tl ih =>
      intro hp
      rw [List.pairwise_cons] at hp
      show (a :: tl).dropWhile (fun s => decide (s.1 < cutoff)) = _
      rw [List.dropWhile_cons, List.filter_cons]
      by_cases ha : a.1 < cutoff
      · rw [if_pos (by simpa using ha), if_neg (by simpa using not_le.mpr ha)]
        exact ih hp.2
      · have hle : cutoff ≤ a.1 := not_lt.mp ha
        rw [if_neg (by simpa using ha), if_pos (by simpa using hle)]
        have htl : tl.filter (fun s => decide (cutoff ≤ s.1)) = tl := by
          rw [List.filter_eq_self]
          intro b hb
          simpa using le_trans hle (hp.1 b hb)
        rw [htl]
  refine ⟨hmain buf hsorted, ?_⟩
  rw [hmain buf hsorted]
  exact List.filter_sublist buf

/-- Witness for `prune_removes_exactly_old` on a concrete sorted buffer. -/
theorem prune_removes_exactly_old_witness :
    pruneSamples [((0 : ℚ), (5 : ℚ)), (10, 6), (20, 7)] 15 =
        ([((0 : ℚ), (5 : ℚ)), (10, 6), (20, 7)]).filter (fun s => decide ((15 : ℚ) ≤ s.1)) ∧
      List.Sublist (pruneSamples [((0 : ℚ), (5 : ℚ)), (10, 6), (20, 7)] 15)
        [((0 : ℚ), (5 : ℚ)), (10, 6), (20, 7)] :=
  prune_removes_exactly_old _ 15 (by norm_num [List.pairwise_cons])

lemma dequePush_length_le {α : Type} (cap : ℕ) (buf : List α) (x : α)
    (h : buf.length ≤ cap) : (dequePush cap buf x).length ≤ cap := by
  unfold dequePush
  split_ifs with hlt
  · simp only [List.length_append, List.length_singleton]
    omega
  · simp only [List.length_drop, List.length_append, List.length_singleton]
    omega

lemma pruneSamples_length_le (buf : List (ℚ × ℚ)) (cutoff : ℚ) :
    (pruneSamples buf cutoff).length ≤ buf.length :=
  (List.dropWhile_sublist _).length_le

/-- C6: under any sequence of push and prune operations starting within
capacity, the Window Store's size never exceeds its capacity
`SAMPLES_LONGTERM = 240`; and a push onto a full store whose timestamps
strictly increase (the new timestamp being fresher than the oldest) evicts
exactly the oldest sample, which is then absent from the buffer. -/
theorem window_store_capacity
    (ops : List BufOp) (buf : List (ℚ × ℚ)) (hcap : buf.length ≤ SAMPLES_LONGTERM)
    (full : List (ℚ × ℚ)) (x : ℚ × ℚ) (hfull : full.length = SAMPLES_LONGTERM)
    (hmono : List.Pairwise (fun a b => a.1 < b.1) full) (hx : full.headI.1 < x.1) :
    (List.foldl applyBufOp buf ops).length ≤ SAMPLES_LONGTERM ∧
      dequePush SAMPLES_LONGTERM full x = full.tail ++ [x] ∧
      full.headI ∉ dequePush SAMPLES_LONGTERM full x := by
  have hfold : ∀ (l : List BufOp) (b : List (ℚ × ℚ)), b.length ≤ SAMPLES_LONGTERM →
      (List.foldl applyBufOp b l).length ≤ SAMPLES_LONGTERM := by
    intro l
    induction l with
    | nil => intro b hb; exact hb
    | cons op rest ih =>
      intro b hb
      rw [List.foldl_cons]
      apply ih
      cases op with
      | push s => exact dequePush_length_le _ _ _ hb
      | prune t => exact le_trans (pruneSamples_length_le _ _) hb
  rcases full with _ | ⟨a, tl⟩
  · simp [SAMPLES_LONGTERM] at hfull
  have hpush : dequePush SAMPLES_LONGTERM (a :: tl) x = tl ++ [x] := by
    unfold dequePush
    rw [if_neg (by omega)]
    rw [hfull]
    have hone : SAMPLES_LONGTERM + 1 - SAMPLES_LONGTERM = 1 := by omega
    rw [hone, List.drop_one]
    rfl
  refine ⟨hfold ops buf hcap, hpush, ?_⟩
  rw [hpush]
  rw [List.pairwise_cons] at hmono
  intro hmem
  rcases List.mem_append.mp hmem with hin | hone
  · exact absurd (hmono.1 _ hin) (lt_irrefl _)
  · rcases List.mem_singleton.mp hone with rfl
    exact absurd hx (lt_irrefl _)

lemma witnessFull_length : witnessFull.length = SAMPLES_LONGTERM := by
  rw [witnessFull, List.length_map, List.length_range]
  rfl

lemma witnessFull_pairwise : List.Pairwise (fun a b : ℚ × ℚ => a.1 < b.1) witnessFull := by
  apply List.pairwise_map.mpr
  apply List.Pairwise.imp _ (List.sorted_lt_range 240)
  intro a b hab
  show (a : ℚ) < (b : ℚ)
  exact_mod_cast hab

lemma witnessFull_headI : witnessFull.headI = ((0 : ℚ), 0) := by
  rw [witnessFull, show (240 : ℕ) = 239 + 1 from rfl, List.range_succ_eq_map]
  rfl

/-- Witness for `window_store_capacity`: two operations on a small concrete
buffer and one push onto a concrete full window. -/
theorem window_store_capacity_witness :
    (List.foldl applyBufOp [((0 : ℚ), (0 : ℚ))] [BufOp.push (1, 1), BufOp.prune 500]).length
        ≤ SAMPLES_LONGTERM ∧
      dequePush SAMPLES_LONGTERM witnessFull ((240 : ℚ), 0) = witnessFull.tail ++ [((240 : ℚ), 0)] ∧
      witnessFull.headI ∉ dequePush SAMPLES_LONGTERM witnessFull ((240 : ℚ), 0) :=
  window_store_capacity [BufOp.push (1, 1), BufOp.prune 500] [((0 : ℚ), (0 : ℚ))]
    (by simp [SAMPLES_LONGTERM]) witnessFull ((240 : ℚ), 0) witnessFull_length
    witnessFull_pairwise (by rw [witnessFull_headI]; norm_num)

lemma natDigitChars_length_le (m : ℕ) (hm : m < 10 ^ 6) :
    (natDigitChars m).length ≤ 6 := by
  unfold natDigitChars
  split_ifs with h0
  · simp
  · rw [List.length_map, List.length_reverse, digitsRev_eq_digits m m le_rfl,
      Nat.digits_len 10 m (by norm_num) h0]
    have := Nat.log_lt_of_lt_pow h0 hm
    omega

lemma intReprChars_length_le (n : ℤ) (h1 : -273000 ≤ n) (h2 : n ≤ 200000) :
    (intReprChars n).length ≤ 7 := by
  have habs : n.natAbs < 10 ^ 6 := by
    have : (10:ℕ) ^ 6 = 1000000 := by norm_num
    omega
  have hd := natDigitChars_length_le n.natAbs habs
  unfold intReprChars
  split_ifs with hneg
  · rw [List.length_cons]
    omega
  · omega

lemma pyFormat9_length (n : ℤ) (h1 : -273000 ≤ n) (h2 : n ≤ 200000) :
    (pyFormat9 n).length = 9 := by
  have h := intReprChars_length_le n h1 h2
  unfold pyFormat9
  rw [List.length_append, List.length_replicate]
  omega

lemma lineFor_length (r : ℚ) : (lineFor r).length = 10 := by
  rw [lineFor, List.length_append, pyFormat9_length (encode r) (encode_ge r) (encode_le r)]
  rfl

/-- C3 counterexample: the claimed truncate does not happen. Writing the
encoded line for rate `0` over 15 bytes of pre-existing content leaves the
last 5 stale bytes behind, so the file content is not exactly the latest
encoded line. -/
theorem write_no_truncate_counterexample :
    writeAt0 (List.replicate 15 'X') (lineFor 0) = lineFor 0 ++ List.replicate 5 'X' ∧
      writeAt0 (List.replicate 15 'X') (lineFor 0) ≠ lineFor 0 := by
  have hl : lineFor 0 = pyFormat9 100000 ++ ['\n'] := by rw [lineFor, encode_zero]
  rw [hl]
  exact ⟨by decide, by decide⟩

/-- C3 (amended): each cycle's write performs seek-to-start, write, flush —
the source calls no truncate. Every encoded line is exactly 10 bytes, so a
write over content of at most 10 bytes (the initial `"0\n"` or any line this
program previously wrote) leaves the file holding exactly the latest encoded
line; longer pre-existing content would keep trailing stale bytes. -/
theorem write_overwrites_line_exactly (r : ℚ) (content : List Char) :
    (lineFor r).length = 10 ∧
      (content.length ≤ 10 → writeAt0 content (lineFor r) = lineFor r) := by
  refine ⟨lineFor_length r, fun hc => ?_⟩
  rw [writeAt0, lineFor_length r, List.drop_eq_nil_of_le hc, List.append_nil]

/-- Witness for `write_overwrites_line_exactly`: overwriting the initial
`"0\n"` content with the line for rate `0`. -/
theorem write_overwrites_line_exactly_witness :
    (lineFor 0).length = 10 ∧ writeAt0 ['0', '\n'] (lineFor 0) = lineFor 0 :=
  ⟨(write_overwrites_line_exactly 0 ['0', '\n']).1,
    (write_overwrites_line_exactly 0 ['0', '\n']).2 (by decide)⟩

/-- C8: in a cycle where the sample is absent, no output file is written —
all four output slots keep exactly their previous contents — the rate
history and the batch buffer are untouched, and the only state change is the
age-based prune (cutoff `now - 240`) of the window store. -/
theorem absent_cycle_frame (now : ℚ) (st : DaemonState) :
    (step now none st).f_short = st.f_short ∧
      (step now none st).f_mid = st.f_mid ∧
      (step now none st).f_long = st.f_long ∧
      (step now none st).f_smooth = st.f_smooth ∧
      (step now none st).rate_hist = st.rate_hist ∧
      (step now none st).recent = st.recent ∧
      (step now none st).samples = pruneSamples st.samples (now - 240) :=
  ⟨rfl, rfl, rfl, rfl, rfl, rfl, rfl⟩

lemma lastN_length {α : Type} (n : ℕ) (l : List α) :
    (lastN n l).length = min n l.length := by
  rw [lastN, List.length_drop]
  omega

lemma dequePush_subset {α : Type} (cap : ℕ) (buf : List α) (x : α) :
    ∀ p ∈ dequePush cap buf x, p ∈ buf ++ [x] := by
  intro p hp
  unfold dequePush at hp
  split_ifs at hp with h
  · exact hp
  · exact List.drop_subset _ _ hp

lemma dequePush_ne_nil {α : Type} (cap : ℕ) (hcap : 0 < cap) (buf : List α) (x : α) :
    dequePush cap buf x ≠ [] := by
  unfold dequePush
  split_ifs with h
  · simp
  · intro hnil
    have hlen := congrArg List.length hnil
    rw [List.length_drop, List.length_append, List.length_singleton] at hlen
    simp only [List.length_nil] at hlen
    omega

lemma list_sum_pos_of_forall_ge {l : List ℚ} {c : ℚ} (hc : 0 < c)
    (h : ∀ x ∈ l, c ≤ x) (hne : l ≠ []) : 0 < l.sum := by
  cases l with
  | nil => exact absurd rfl hne
  | cons a tl =>
    rw [List.sum_cons]
    have ha : c ≤ a := h a (List.mem_cons_self a tl)
    have htl : 0 ≤ tl.sum :=
      List.sum_nonneg (fun x hx => le_trans hc.le (h x (List.mem_cons_of_mem a hx)))
    linarith

/-- C10: when the aggregation gate passes (buffer holds ≥ 5 samples), the
short-horizon count lies in `[5, 60]`, so the weight pushed into the
smoother history lies in `[5/60, 1]`; provided every weight already retained
is at least `5/60` (as every pushed weight is), the post-push history has
strictly positive total weight and the smoother takes the weighted-mean
branch — the `avg_rate = 0.0` fallback is unreachable while the gate holds. -/
theorem smoother_fallback_unreachable (buf hist : List (ℚ × ℚ)) (r : ℚ)
    (hbuf : 5 ≤ buf.length) (hhist : ∀ p ∈ hist, 5/60 ≤ p.2) :
    (5 ≤ countOf (lastN SAMPLES_SHORTTERM buf) ∧
        countOf (lastN SAMPLES_SHORTTERM buf) ≤ SAMPLES_SHORTTERM) ∧
      (5/60 ≤ (countOf (lastN SAMPLES_SHORTTERM buf) : ℚ) / (SAMPLES_SHORTTERM : ℚ) ∧
        (countOf (lastN SAMPLES_SHORTTERM buf) : ℚ) / (SAMPLES_SHORTTERM : ℚ) ≤ 1) ∧
      0 < ((dequePush NUMBER_OF_RATES hist
            (r, (countOf (lastN SAMPLES_SHORTTERM buf) : ℚ) / (SAMPLES_SHORTTERM : ℚ))).map
            (fun p => p.2)).sum ∧
      smoothed (dequePush NUMBER_OF_RATES hist
            (r, (countOf (lastN SAMPLES_SHORTTERM buf) : ℚ) / (SAMPLES_SHORTTERM : ℚ))) =
        ((dequePush NUMBER_OF_RATES hist
            (r, (countOf (lastN SAMPLES_SHORTTERM buf) : ℚ) / (SAMPLES_SHORTTERM : ℚ))).map
            (fun p => p.1 * p.2)).sum /
          ((dequePush NUMBER_OF_RATES hist
            (r, (countOf (lastN SAMPLES_SHORTTERM buf) : ℚ) / (SAMPLES_SHORTTERM : ℚ))).map
            (fun p => p.2)).sum := by
  have hlen : (lastN SAMPLES_SHORTTERM buf).length = min SAMPLES_SHORTTERM buf.length :=
    lastN_length _ _
  have hge : 5 ≤ (lastN SAMPLES_SHORTTERM buf).length := by
    rw [hlen, SAMPLES_SHORTTERM]
    omega
  have hcount : countOf (lastN SAMPLES_SHORTTERM buf) = (lastN SAMPLES_SHORTTERM buf).length := by
    rw [countOf, if_neg]
    omega
  have hc5 : 5 ≤ countOf (lastN SAMPLES_SHORTTERM buf) := by omega
  have hc60 : countOf (lastN SAMPLES_SHORTTERM buf) ≤ SAMPLES_SHORTTERM := by
    rw [hcount, hlen]
    omega
  have h60 : (SAMPLES_SHORTTERM : ℚ) = 60 := by rw [SAMPLES_SHORTTERM]; norm_num
  have hcast5 : (5 : ℚ) ≤ (countOf (lastN SAMPLES_SHORTTERM buf) : ℚ) := by exact_mod_cast hc5
  have hcast60 : (countOf (lastN SAMPLES_SHORTTERM buf) : ℚ) ≤ 60 := by
    have h := hc60
    rw [SAMPLES_SHORTTERM] at h
    exact_mod_cast h
  have hw1 : 5/60 ≤ (countOf (lastN SAMPLES_SHORTTERM buf) : ℚ) / (SAMPLES_SHORTTERM : ℚ) := by
    rw [h60]
    exact (div_le_div_iff_of_pos_right (by norm_num : (0:ℚ) < 60)).mpr hcast5
  have hw2 : (countOf (lastN SAMPLES_SHORTTERM buf) : ℚ) / (SAMPLES_SHORTTERM : ℚ) ≤ 1 := by
    rw [h60, div_le_one (by norm_num : (0:ℚ) < 60)]
    exact hcast60
  set w : ℚ := (countOf (lastN SAMPLES_SHORTTERM buf) : ℚ) / (SAMPLES_SHORTTERM : ℚ) with hw
  have hall : ∀ p ∈ dequePush NUMBER_OF_RATES hist (r, w), 5/60 ≤ p.2 := by
    intro p hp
    rcases List.mem_append.mp (dequePush_subset _ _ _ p hp) with hin | hone
    · exact hhist p hin
    · rcases List.mem_singleton.mp hone with rfl
      exact hw1
  have hne : dequePush NUMBER_OF_RATES hist (r, w) ≠ [] :=
    dequePush_ne_nil _ (by rw [NUMBER_OF_RATES]; norm_num) _ _
  have hpos : 0 < ((dequePush NUMBER_OF_RATES hist (r, w)).map (fun p => p.2)).sum := by
    apply list_sum_pos_of_forall_ge (show (0:ℚ) < 5/60 by norm_num)
    · intro x hx
      rcases List.mem_map.mp hx with ⟨p, hp, rfl⟩
      exact hall p hp
    · simpa using hne
  refine ⟨⟨hc5, hc60⟩, ⟨hw1, hw2⟩, hpos, ?_⟩
  have hdef : smoothed (dequePush NUMBER_OF_RATES hist (r, w)) =
      if 0 < ((dequePush NUMBER_OF_RATES hist (r, w)).map (fun p => p.2)).sum then
        ((dequePush NUMBER_OF_RATES hist (r, w)).map (fun p => p.1 * p.2)).sum /
          ((dequePush NUMBER_OF_RATES hist (r, w)).map (fun p => p.2)).sum
      else 0 := rfl
  rw [hdef, if_pos hpos]

/-- Witness for `smoother_fallback_unreachable`: a 5-sample buffer and an
empty history. -/
theorem smoother_fallback_unreachable_witness :
    (5 ≤ countOf (lastN SAMPLES_SHORTTERM [((0:ℚ),(0:ℚ)), (1,0), (2,0), (3,0), (4,0)]) ∧
        countOf (lastN SAMPLES_SHORTTERM [((0:ℚ),(0:ℚ)), (1,0), (2,0), (3,0), (4,0)]) ≤
          SAMPLES_SHORTTERM) ∧
      (5/60 ≤ (countOf (lastN SAMPLES_SHORTTERM
            [((0:ℚ),(0:ℚ)), (1,0), (2,0), (3,0), (4,0)]) : ℚ) / (SAMPLES_SHORTTERM : ℚ) ∧
        (countOf (lastN SAMPLES_SHORTTERM
            [((0:ℚ),(0:ℚ)), (1,0), (2,0), (3,0), (4,0)]) : ℚ) / (SAMPLES_SHORTTERM : ℚ) ≤ 1) ∧
      0 < ((dequePush NUMBER_OF_RATES []
            ((0:ℚ), (countOf (lastN SAMPLES_SHORTTERM
              [((0:ℚ),(0:ℚ)), (1,0), (2,0), (3,0), (4,0)]) : ℚ) / (SAMPLES_SHORTTERM : ℚ))).map
            (fun p => p.2)).sum ∧
      smoothed (dequePush NUMBER_OF_RATES []
            ((0:ℚ), (countOf (lastN SAMPLES_SHORTTERM
              [((0:ℚ),(0:ℚ)), (1,0), (2,0), (3,0), (4,0)]) : ℚ) / (SAMPLES_SHORTTERM : ℚ))) =
        ((dequePush NUMBER_OF_RATES []
            ((0:ℚ), (countOf (lastN SAMPLES_SHORTTERM
              [((0:ℚ),(0:ℚ)), (1,0), (2,0), (3,0), (4,0)]) : ℚ) / (SAMPLES_SHORTTERM : ℚ))).map
            (fun p => p.1 * p.2)).sum /
          ((dequePush NUMBER_OF_RATES []
            ((0:ℚ), (countOf (lastN SAMPLES_SHORTTERM
              [((0:ℚ),(0:ℚ)), (1,0), (2,0), (3,0), (4,0)]) : ℚ) / (SAMPLES_SHORTTERM : ℚ))).map
            (fun p => p.2)).sum :=
  smoother_fallback_unreachable [((0:ℚ),(0:ℚ)), (1,0), (2,0), (3,0), (4,0)] [] 0
    (by norm_num) (by simp)

lemma double_sum_identity (n : ℕ) (t d : ℕ → ℚ) :
    ∑ i ∈ Finset.range n, ∑ j ∈ Finset.range n, (t i - t j) * (d i - d j)
      = 2 * numQ n t d := by
  have expand : ∀ i j : ℕ, (t i - t j) * (d i - d j)
      = t i * d i - t i * d j - t j * d i + t j * d j := by
    intro i j
    ring
  simp only [expand, Finset.sum_add_distrib, Finset.sum_sub_distrib, ← Finset.mul_sum,
    ← Finset.sum_mul, Finset.sum_const, Finset.card_range, nsmul_eq_mul, numQ]
  have hpull : ∑ x ∈ Finset.range n, t x * ((n : ℚ) * d x)
      = (n : ℚ) * ∑ x ∈ Finset.range n, t x * d x := by
    rw [Finset.mul_sum]
    exact Finset.sum_congr rfl (fun x _ => by ring)
  rw [hpull]
  ring

lemma numQ_pos (n : ℕ) (t d : ℕ → ℚ) (h2 : 2 ≤ n)
    (ht : ∀ i j, i < j → j < n → t i < t j)
    (hd : ∀ i j, i < j → j < n → d i ≤ d j)
    (hne : d 0 < d (n - 1)) : 0 < numQ n t d := by
  have nonneg : ∀ i, i < n → ∀ j, j < n → 0 ≤ (t i - t j) * (d i - d j) := by
    intro i hi j hj
    rcases lt_trichotomy i j with hij | rfl | hij
    · have ha := ht i j hij hj
      have hb := hd i j hij hj
      nlinarith
    · simp
    · have ha := ht j i hij hi
      have hb := hd j i hij hi
      nlinarith
  have key : 0 < ∑ i ∈ Finset.range n, ∑ j ∈ Finset.range n, (t i - t j) * (d i - d j) := by
    apply Finset.sum_pos'
    · intro i hi
      exact Finset.sum_nonneg (fun j hj =>
        nonneg i (Finset.mem_range.mp hi) j (Finset.mem_range.mp hj))
    · refine ⟨0, Finset.mem_range.mpr (by omega), ?_⟩
      apply Finset.sum_pos'
      · intro j hj
        exact nonneg 0 (by omega) j (Finset.mem_range.mp hj)
      · refine ⟨n - 1, Finset.mem_range.mpr (by omega), ?_⟩
        have h1 : t 0 < t (n - 1) := ht 0 (n - 1) (by omega) (by omega)
        nlinarith
  have hid := double_sum_identity n t d
  linarith

lemma numQ_neg_right (n : ℕ) (t d : ℕ → ℚ) :
    numQ n t (fun i => -(d i)) = -(numQ n t d) := by
  simp only [numQ, mul_neg, Finset.sum_neg_distrib]
  ring

lemma listSum_eq_range : ∀ (l : List ℚ), l.sum = ∑ i ∈ Finset.range l.length, l.getD i 0 := by
  intro l
  induction l with
  | nil => simp
  | cons a tl ih =>
    rw [List.sum_cons, List.length_cons, Finset.sum_range_succ']
    simp only [List.getD_cons_succ, List.getD_cons_zero]
    rw [ih]
    ring

lemma zipWithMul_sum : ∀ (xs ys : List ℚ),
    (List.zipWith (fun a b => a * b) xs ys).sum
      = ∑ i ∈ Finset.range (min xs.length ys.length), xs.getD i 0 * ys.getD i 0 := by
  intro xs
  induction xs with
  | nil => intro ys; simp
  | cons x xs ih =>
    intro ys
    cases ys with
    | nil => simp
    | cons y ys =>
      rw [List.zipWith_cons_cons, List.sum_cons, List.length_cons, List.length_cons]
      rw [show min (xs.length + 1) (ys.length + 1) = min xs.length ys.length + 1 by omega]
      rw [Finset.sum_range_succ']
      simp only [List.getD_cons_succ, List.getD_cons_zero]
      rw [ih ys]
      ring

lemma getD_map (s : List (ℚ × ℚ)) (f : (ℚ × ℚ) → ℚ) (i : ℕ) (h : i < s.length) :
    (s.map f).getD i 0 = f (s.getD i (0, 0)) := by
  rw [List.getD_eq_getElem _ _ (show i < (s.map f).length by simpa using h),
    List.getD_eq_getElem _ _ h, List.getElem_map]

lemma headI_eq_getD (s : List (ℚ × ℚ)) : s.headI = s.getD 0 (0, 0) := by
  cases s <;> rfl

lemma sum_map_eq_range (s : List (ℚ × ℚ)) (f : (ℚ × ℚ) → ℚ) :
    (s.map f).sum = ∑ i ∈ Finset.range s.length, f (s.getD i (0, 0)) := by
  rw [listSum_eq_range, List.length_map]
  exact Finset.sum_congr rfl (fun i hi => getD_map s f i (Finset.mem_range.mp hi))

lemma sum_zipWith_eq_range (s : List (ℚ × ℚ)) (f g : (ℚ × ℚ) → ℚ) :
    (List.zipWith (fun a b => a * b) (s.map f) (s.map g)).sum
      = ∑ i ∈ Finset.range s.length, f (s.getD i (0, 0)) * g (s.getD i (0, 0)) := by
  rw [zipWithMul_sum, List.length_map, List.length_map, min_self]
  exact Finset.sum_congr rfl (fun i hi =>
    by rw [getD_map s f i (Finset.mem_range.mp hi), getD_map s g i (Finset.mem_range.mp hi)])

lemma regNumDen_fst (s : List (ℚ × ℚ)) :
    (regNumDen s).1 = numQ s.length (fun i => (s.getD i (0, 0)).1 - (s.getD 0 (0, 0)).1)
      (fun i => (s.getD i (0, 0)).2) := by
  have h1 : (regNumDen s).1 = (s.length : ℚ) *
      (List.zipWith (fun a b => a * b) (s.map fun p => p.1 - s.headI.1) (s.map fun p => p.2)).sum
      - (s.map fun p => p.1 - s.headI.1).sum * (s.map fun p => p.2).sum := rfl
  rw [h1, sum_zipWith_eq_range s (fun p => p.1 - s.headI.1) (fun p => p.2),
    sum_map_eq_range s (fun p => p.1 - s.headI.1), sum_map_eq_range s (fun p => p.2),
    headI_eq_getD, numQ]

lemma regNumDen_den (s : List (ℚ × ℚ)) :
    (regNumDen s).2.1 = numQ s.length (fun i => (s.getD i (0, 0)).1 - (s.getD 0 (0, 0)).1)
      (fun i => (s.getD i (0, 0)).1 - (s.getD 0 (0, 0)).1) := by
  have h1 : (regNumDen s).2.1 = (s.length : ℚ) *
      ((s.map fun p => p.1 - s.headI.1).map (fun a => a * a)).sum
      - (s.map fun p => p.1 - s.headI.1).sum * (s.map fun p => p.1 - s.headI.1).sum := rfl
  rw [h1, List.map_map, sum_map_eq_range s ((fun a => a * a) ∘ (fun p => p.1 - s.headI.1)),
    sum_map_eq_range s (fun p => p.1 - s.headI.1), headI_eq_getD, numQ]
  rfl

lemma slopeOf_eq (s : List (ℚ × ℚ)) (h2 : 2 ≤ s.length) :
    slopeOf s = numQ s.length (fun i => (s.getD i (0, 0)).1 - (s.getD 0 (0, 0)).1)
        (fun i => (s.getD i (0, 0)).2) /
      numQ s.length (fun i => (s.getD i (0, 0)).1 - (s.getD 0 (0, 0)).1)
        (fun i => (s.getD i (0, 0)).1 - (s.getD 0 (0, 0)).1) := by
  rw [slopeOf, if_neg (by omega), regNumDen_fst, regNumDen_den]

lemma trendOf_eq (s : List (ℚ × ℚ)) :
    trendOf s = (s.getD (s.length - 1) (0, 0)).2 - (s.getD 0 (0, 0)).2 := by
  rw [trendOf, headI_eq_getD]
  simp [List.getD_eq_getElem?_getD, List.getLast?_eq_getElem?]

lemma pairwise_getD {R : (ℚ × ℚ) → (ℚ × ℚ) → Prop} {s : List (ℚ × ℚ)}
    (h : List.Pairwise R s) :
    ∀ i j, i < j → j < s.length → R (s.getD i (0, 0)) (s.getD j (0, 0)) := by
  intro i j hij hj
  have hi : i < s.length := lt_trans hij hj
  rw [List.getD_eq_getElem _ _ hi, List.getD_eq_getElem _ _ hj]
  exact List.pairwise_iff_getElem.mp h i j hi hj hij

/-- C2 counterexample: the window `[(0,0), (1,20), (2,0), (3,1)]` has ≥ 2
samples, strictly increasing timestamps and non-constant distances; its
overall displacement trend (last minus first distance) is positive, yet
`compute_rate`'s slope is negative (`-17/10`), so the slope's sign does not
match the sign of the overall displacement trend. -/
theorem slope_sign_counterexample :
    2 ≤ ([((0:ℚ), (0:ℚ)), (1, 20), (2, 0), (3, 1)] : List (ℚ × ℚ)).length ∧
      List.Pairwise (fun a b : ℚ × ℚ => a.1 < b.1)
        [((0:ℚ), (0:ℚ)), (1, 20), (2, 0), (3, 1)] ∧
      (∃ p ∈ ([((0:ℚ), (0:ℚ)), (1, 20), (2, 0), (3, 1)] : List (ℚ × ℚ)),
        ∃ q ∈ ([((0:ℚ), (0:ℚ)), (1, 20), (2, 0), (3, 1)] : List (ℚ × ℚ)), p.2 ≠ q.2) ∧
      0 < trendOf [((0:ℚ), (0:ℚ)), (1, 20), (2, 0), (3, 1)] ∧
      slopeOf [((0:ℚ), (0:ℚ)), (1, 20), (2, 0), (3, 1)] < 0 := by
  refine ⟨by norm_num, by norm_num [List.pairwise_cons], ?_, ?_, ?_⟩
  · exact ⟨((0:ℚ), (0:ℚ)), by norm_num, ((1:ℚ), (20:ℚ)), by norm_num, by norm_num⟩
  · norm_num [trendOf]
  · norm_num [slopeOf, regNumDen]

/-- C2 (amended): for every window of ≥ 2 samples with strictly increasing
timestamps whose distances are monotone along the window (a consistent
displacement trend), the sign of `compute_rate`'s slope matches the
direction of the overall displacement trend: a rising, not-all-equal window
gives a positive slope, a falling one a negative slope. (For non-monotone
windows the match can fail, see `slope_sign_counterexample`.) -/
theorem slope_sign_matches_monotone_trend (s : List (ℚ × ℚ)) (h2 : 2 ≤ s.length)
    (ht : List.Pairwise (fun a b : ℚ × ℚ => a.1 < b.1) s) :
    (List.Pairwise (fun a b : ℚ × ℚ => a.2 ≤ b.2) s → 0 < trendOf s → 0 < slopeOf s) ∧
      (List.Pairwise (fun a b : ℚ × ℚ => b.2 ≤ a.2) s → trendOf s < 0 → slopeOf s < 0) := by
  have hT : ∀ i j, i < j → j < s.length →
      (s.getD i (0, 0)).1 - (s.getD 0 (0, 0)).1 < (s.getD j (0, 0)).1 - (s.getD 0 (0, 0)).1 := by
    intro i j hij hj
    have := pairwise_getD ht i j hij hj
    linarith
  have hden : 0 < numQ s.length (fun i => (s.getD i (0, 0)).1 - (s.getD 0 (0, 0)).1)
      (fun i => (s.getD i (0, 0)).1 - (s.getD 0 (0, 0)).1) :=
    numQ_pos _ _ _ h2 hT (fun i j hij hj => (hT i j hij hj).le)
      (hT 0 (s.length - 1) (by omega) (by omega))
  constructor
  · intro hmono htrend
    rw [trendOf_eq] at htrend
    rw [slopeOf_eq s h2]
    apply div_pos _ hden
    exact numQ_pos _ _ _ h2 hT (fun i j hij hj => pairwise_getD hmono i j hij hj)
      (by linarith)
  · intro hanti htrend
    rw [trendOf_eq] at htrend
    rw [slopeOf_eq s h2]
    apply div_neg_of_neg_of_pos _ hden
    have hpos : 0 < numQ s.length (fun i => (s.getD i (0, 0)).1 - (s.getD 0 (0, 0)).1)
        (fun i => -((s.getD i (0, 0)).2)) := by
      refine numQ_pos _ _ _ h2 hT (fun i j hij hj => ?_) ?_
      · have := pairwise_getD hanti i j hij hj
        simp only [neg_le_neg_iff]
        exact this
      · simp only [neg_lt_neg_iff]
        linarith
    rw [numQ_neg_right] at hpos
    linarith

/-- Witness for `slope_sign_matches_monotone_trend`: a strictly rising
3-sample window has a positive slope. -/
theorem slope_sign_matches_monotone_trend_witness :
    0 < slopeOf [((0:ℚ), (0:ℚ)), (1, 1), (2, 2)] :=
  (slope_sign_matches_monotone_trend _ (by norm_num)
      (by norm_num [List.pairwise_cons])).1
    (by norm_num [List.pairwise_cons]) (by norm_num [trendOf])

end Ratemeter
